import Mathlib

/-!
Shallow embedding of the `serde_catch_all` procedural macro (src/src/lib.rs).

The macro reads an enum definition (variants with attributes and field
shapes), analyzes it into an `EnumInfo` (the lookup tables), and generates
a deserializer (`visit_str`: match known wire names, then aliases, then the
catch-all) and a serializer (match known variant paths to their wire names,
catch-all emits its held string).
-/

/-- Model of a `syn::Type` as far as `is_string_type` inspects it:
a path type is its list of segment identifiers. -/
inductive SynType where
  | path (segments : List String)
  | other
deriving DecidableEq

/-- Model of `syn::Fields`: unit, tuple (unnamed) fields, or named fields.
Only the shape and the field types matter to the macro. -/
inductive Fields where
  | unit
  | unnamed (tys : List SynType)
  | named (tys : List SynType)
deriving DecidableEq

/-- One nested meta item inside a `#[serde(...)]` list, as far as
`extract_serde_names` distinguishes them: a `rename = "s"` with a string
literal, a `rename = <non-string>` (silently ignored), likewise for
`alias`, and anything else. -/
inductive MetaItem where
  | renameStr (s : String)
  | renameOther
  | aliasStr (s : String)
  | aliasOther
  | other
deriving DecidableEq

/-- The meta payload of an attribute: a successfully parsed list
(`Meta::List` whose `parse_args_with` succeeded), a list whose nested parse
fails with a given message, or a non-list meta (skipped by the extractor). -/
inductive AttrMeta where
  | list (items : List MetaItem)
  | malformedList (msg : String)
  | notList
deriving DecidableEq

/-- Model of `syn::Attribute`: its path (a single identifier, which is all
`is_ident` checks) and its meta payload. -/
structure Attr where
  path : String
  meta : AttrMeta
deriving DecidableEq

/-- Model of `syn::Variant`: identifier, attached attributes, field shape. -/
structure SynVariant where
  ident : String
  attrs : List Attr
  fields : Fields
deriving DecidableEq

/-- The enum definition handed to the macro. -/
structure EnumDef where
  ident : String
  variants : List SynVariant
deriving DecidableEq

/-- Model of a `syn::Path` naming a variant, as built by `variant_path`:
`EnumIdent :: VariantIdent`. -/
structure VPath where
  enumIdent : String
  variantIdent : String
deriving DecidableEq

/-- A runtime value of the generated enum: one of the unit (known)
variants, identified by its path, or the catch-all variant holding a
string. -/
inductive Variant where
  | known (p : VPath)
  | catchAll (s : String)
deriving DecidableEq

/-- Embedding of `is_catch_all_attr`: the attribute path is the identifier `catch_all`. -/
def isCatchAllAttr (a : Attr) : Bool :=
  a.path == "catch_all"

/-- Embedding of `is_string_type`: a path type whose last segment identifier is `String`. -/
def isStringType : SynType → Bool
  | SynType.path segs => segs.getLast? == some "String"
  | SynType.other => false

/-- Embedding of `variant_path`: builds `EnumIdent :: VariantIdent`. -/
def variantPath (enumIdent : String) (v : SynVariant) : VPath :=
  ⟨enumIdent, v.ident⟩

/-- The loop body of `extract_serde_names` over the nested metas of one
`#[serde(...)]` list: `rename = "s"` overwrites the primary name,
`alias = "s"` appends, everything else is ignored. -/
def processMetas : List MetaItem → Option String → List String → Option String × List String
  | [], primary, aliases => (primary, aliases)
  | MetaItem.renameStr s :: rest, _, aliases => processMetas rest (some s) aliases
  | MetaItem.aliasStr s :: rest, primary, aliases => processMetas rest primary (aliases ++ [s])
  | _ :: rest, primary, aliases => processMetas rest primary aliases

/-- The attribute loop of `extract_serde_names`: non-`serde` attributes and
non-list metas are skipped; a nested parse failure propagates as an error. -/
def extractGo : List Attr → Option String → List String → Except String (Option String × List String)
  | [], primary, aliases => Except.ok (primary, aliases)
  | a :: rest, primary, aliases =>
    if a.path == "serde" then
      match a.meta with
      | AttrMeta.list items =>
        let st := processMetas items primary aliases
        extractGo rest st.1 st.2
      | AttrMeta.malformedList m => Except.error m
      | AttrMeta.notList => extractGo rest primary aliases
    else extractGo rest primary aliases

/-- Embedding of `extract_serde_names`: returns `(primary_name, aliases)`, the primary
defaulting to the variant identifier when no rename was seen. -/
def extractSerdeNames (attrs : List Attr) (defaultName : String) : Except String (String × List String) :=
  match extractGo attrs none [] with
  | Except.error m => Except.error m
  | Except.ok (primary, aliases) => Except.ok (primary.getD defaultName, aliases)

/-- The `EnumInfo` produced by `analyze_enum`: the known wire-name arms and
alias arms (each a literal paired with the variant path, in registration
order), the catch-all variant path, and whether the catch-all field type is
`String`. -/
structure EnumInfo where
  known_arms : List (String × VPath)
  aliases_arms : List (String × VPath)
  catch_all_variant_path : VPath
  catch_all_binding_ty_is_string : Bool
deriving DecidableEq

/-- The variant loop of `analyze_enum`, with the accumulated state made
explicit: known arms, alias arms, the catch-all path seen so far, and the
catch-all-is-string flag. Mirrors the source order of checks: for a
catch-all variant the shape is checked (and the string flag updated) before
the duplicate check; a known variant must be unit, then its names are
extracted; at the end a missing catch-all is an error. -/
def analyzeGo (enumIdent : String) :
    List SynVariant → List (String × VPath) → List (String × VPath) →
    Option VPath → Bool → Except String EnumInfo
  | [], known, aliases, catchOpt, isStr =>
    match catchOpt with
    | none => Except.error "you must provide exactly one #[catch_all] variant with a single `String` field"
    | some p => Except.ok ⟨known, aliases, p, isStr⟩
  | v :: vs, known, aliases, catchOpt, isStr =>
    if v.attrs.any isCatchAllAttr then
      match v.fields with
      | Fields.unnamed [ty] =>
        if catchOpt.isSome then
          Except.error "only one #[catch_all] variant is allowed"
        else
          analyzeGo enumIdent vs known aliases (some (variantPath enumIdent v)) (isStringType ty)
      | _ => Except.error "the #[catch_all] variant must be a tuple variant with exactly one field of type `String`"
    else
      match v.fields with
      | Fields.unit =>
        match extractSerdeNames v.attrs v.ident with
        | Except.error m => Except.error m
        | Except.ok (primary, als) =>
          analyzeGo enumIdent vs
            (known ++ [(primary, variantPath enumIdent v)])
            (aliases ++ als.map (fun a => (a, variantPath enumIdent v)))
            catchOpt isStr
      | _ => Except.error "non-catch-all variants must be unit variants"

/-- Embedding of `analyze_enum` over an enum definition. -/
def analyzeEnum (e : EnumDef) : Except String EnumInfo :=
  analyzeGo e.ident e.variants [] [] none false

/-- The whole `serde_catch_all` entry point on an enum: analyze, then
reject a catch-all whose single field is not of type `String` (this check
happens after `analyze_enum` returns). -/
def compile (e : EnumDef) : Except String EnumInfo :=
  match analyzeEnum e with
  | Except.error m => Except.error m
  | Except.ok info =>
    if info.catch_all_binding_ty_is_string then Except.ok info
    else Except.error "the #[catch_all] variant must be a tuple with a single `String` field"

/-- The generated `visit_str`/`visit_string` body: match the input against
the known wire-name literals in order, then the alias literals in order
(one Rust `match`, first matching arm wins), otherwise build the catch-all
variant holding the input verbatim. Total by construction. -/
def decode (info : EnumInfo) (v : String) : Variant :=
  match (info.known_arms ++ info.aliases_arms).find? (fun a => a.1 == v) with
  | some a => Variant.known a.2
  | none => Variant.catchAll v

/-- The generated `Serialize::serialize` body: a known variant is matched
against the serialize arms (one per known arm, same order), producing that
arm's literal; the catch-all variant emits its held string. `none` encodes
the (unreachable in Rust) case of a variant value matching no arm. -/
def encode (info : EnumInfo) : Variant → Option String
  | Variant.known p => (info.known_arms.find? (fun a => a.2 == p)).map (fun a => a.1)
  | Variant.catchAll s => some s

/-- The set of registered decode keys: every wire name and every alias. -/
def decodeKeys (info : EnumInfo) : List String :=
  (info.known_arms ++ info.aliases_arms).map (fun a => a.1)

/-- The rename values appearing in one `#[serde(...)]` list, in order. -/
def renameValues (items : List MetaItem) : List String :=
  items.filterMap (fun m => match m with | MetaItem.renameStr s => some s | _ => none)

/-- The alias values appearing in one `#[serde(...)]` list, in order. -/
def aliasValues (items : List MetaItem) : List String :=
  items.filterMap (fun m => match m with | MetaItem.aliasStr s => some s | _ => none)

/-- All nested metas of the `#[serde(...)]` list attributes, in source order. -/
def serdeItems : List Attr → List MetaItem
  | [] => []
  | a :: rest =>
    (if a.path == "serde" then
      match a.meta with
      | AttrMeta.list items => items
      | _ => []
    else []) ++ serdeItems rest

/-- Whether name extraction succeeds on a variant's attributes. -/
def extractOk (v : SynVariant) : Bool :=
  match extractSerdeNames v.attrs v.ident with
  | Except.ok _ => true
  | Except.error _ => false

/-- Whether an attribute meta is a serde list whose nested parse fails. -/
def isMalformed : AttrMeta → Bool
  | AttrMeta.malformedList _ => true
  | _ => false

/-- A variant that the analyzer walks past without error: not marked
catch-all, unit shaped, and its serde attributes extract successfully. -/
def cleanKnown (v : SynVariant) : Prop :=
  v.attrs.any isCatchAllAttr = false ∧ v.fields = Fields.unit ∧ extractOk v = true

/-- Whether a field shape is a tuple with exactly one field, the shape the
analyzer accepts for the catch-all variant. -/
def isSingleUnnamed : Fields → Bool
  | Fields.unnamed [_] => true
  | _ => false

/-- The running example from the repository (`examples/main.rs`):
`OptionA`, `OptionB` renamed to `b`, `OptionC` with aliases `alt1`/`alt2`,
and catch-all `Other(String)`. -/
def exampleEnum : EnumDef :=
  ⟨"Example",
    [⟨"OptionA", [], Fields.unit⟩,
     ⟨"OptionB", [⟨"serde", AttrMeta.list [MetaItem.renameStr "b"]⟩], Fields.unit⟩,
     ⟨"OptionC", [⟨"serde", AttrMeta.list [MetaItem.aliasStr "alt1", MetaItem.aliasStr "alt2"]⟩], Fields.unit⟩,
     ⟨"Other", [⟨"catch_all", AttrMeta.notList⟩], Fields.unnamed [SynType.path ["String"]]⟩]⟩

/-- The compiled tables of `exampleEnum`. -/
def exInfo : EnumInfo :=
  ⟨[("OptionA", ⟨"Example", "OptionA"⟩), ("b", ⟨"Example", "OptionB"⟩), ("OptionC", ⟨"Example", "OptionC"⟩)],
   [("alt1", ⟨"Example", "OptionC"⟩), ("alt2", ⟨"Example", "OptionC"⟩)],
   ⟨"Example", "Other"⟩, true⟩

/-- A schema in which two known variants are both renamed to the same wire
name `Z`: `A` first, `B` second. -/
def clashWireEnum : EnumDef :=
  ⟨"Bad2",
    [⟨"A", [⟨"serde", AttrMeta.list [MetaItem.renameStr "Z"]⟩], Fields.unit⟩,
     ⟨"B", [⟨"serde", AttrMeta.list [MetaItem.renameStr "Z"]⟩], Fields.unit⟩,
     ⟨"Other", [⟨"catch_all", AttrMeta.notList⟩], Fields.unnamed [SynType.path ["String"]]⟩]⟩

/-- Compiled tables of `clashWireEnum`. -/
def clashWireInfo : EnumInfo :=
  ⟨[("Z", ⟨"Bad2", "A"⟩), ("Z", ⟨"Bad2", "B"⟩)], [], ⟨"Bad2", "Other"⟩, true⟩

/-- A schema in which variant `B` declares an alias equal to the earlier
variant `A`'s primary wire name. -/
def clashAliasEnum : EnumDef :=
  ⟨"Bad3",
    [⟨"A", [], Fields.unit⟩,
     ⟨"B", [⟨"serde", AttrMeta.list [MetaItem.aliasStr "A"]⟩], Fields.unit⟩,
     ⟨"Other", [⟨"catch_all", AttrMeta.notList⟩], Fields.unnamed [SynType.path ["String"]]⟩]⟩

/-- Compiled tables of `clashAliasEnum`. -/
def clashAliasInfo : EnumInfo :=
  ⟨[("A", ⟨"Bad3", "A"⟩), ("B", ⟨"Bad3", "B"⟩)], [("A", ⟨"Bad3", "B"⟩)], ⟨"Bad3", "Other"⟩, true⟩

/-- A schema in which `A` and `B` share the wire name `y` while `B` also
has the alias `z`: decoding `z` yields `B`, re-encoding yields `y`, which
decodes back to `A`. -/
def unstableEnum : EnumDef :=
  ⟨"Bad5",
    [⟨"A", [⟨"serde", AttrMeta.list [MetaItem.renameStr "y"]⟩], Fields.unit⟩,
     ⟨"B", [⟨"serde", AttrMeta.list [MetaItem.renameStr "y", MetaItem.aliasStr "z"]⟩], Fields.unit⟩,
     ⟨"Other", [⟨"catch_all", AttrMeta.notList⟩], Fields.unnamed [SynType.path ["String"]]⟩]⟩

/-- Compiled tables of `unstableEnum`. -/
def unstableInfo : EnumInfo :=
  ⟨[("y", ⟨"Bad5", "A"⟩), ("y", ⟨"Bad5", "B"⟩)], [("z", ⟨"Bad5", "B"⟩)], ⟨"Bad5", "Other"⟩, true⟩

/-- A schema with two structural violations at once: a non-unit known
variant (tuple field) and no catch-all variant at all. -/
def twoViolationsEnum : EnumDef :=
  ⟨"Bad6", [⟨"A", [], Fields.unnamed [SynType.path ["String"]]⟩]⟩

/-- A schema in which the first-declared variant `A` has the alias `k`
while the second-declared variant `B` has `k` as its primary wire name. -/
def aliasVsWireEnum : EnumDef :=
  ⟨"Bad7",
    [⟨"A", [⟨"serde", AttrMeta.list [MetaItem.aliasStr "k"]⟩], Fields.unit⟩,
     ⟨"B", [⟨"serde", AttrMeta.list [MetaItem.renameStr "k"]⟩], Fields.unit⟩,
     ⟨"Other", [⟨"catch_all", AttrMeta.notList⟩], Fields.unnamed [SynType.path ["String"]]⟩]⟩

/-- Compiled tables of `aliasVsWireEnum`. -/
def aliasVsWireInfo : EnumInfo :=
  ⟨[("A", ⟨"Bad7", "A"⟩), ("k", ⟨"Bad7", "B"⟩)], [("k", ⟨"Bad7", "A"⟩)], ⟨"Bad7", "Other"⟩, true⟩

/-- A schema where the first-declared variant `A` carries the alias `b`
and the second-declared variant `B` is renamed to `b`. -/
def mixEnum : EnumDef :=
  ⟨"Mix",
    [⟨"A", [⟨"serde", AttrMeta.list [MetaItem.aliasStr "b"]⟩], Fields.unit⟩,
     ⟨"B", [⟨"serde", AttrMeta.list [MetaItem.renameStr "b"]⟩], Fields.unit⟩,
     ⟨"Other", [⟨"catch_all", AttrMeta.notList⟩], Fields.unnamed [SynType.path ["String"]]⟩]⟩

/-- Compiled tables of `mixEnum`. -/
def mixInfo : EnumInfo :=
  ⟨[("A", ⟨"Mix", "A"⟩), ("b", ⟨"Mix", "B"⟩)], [("b", ⟨"Mix", "A"⟩)], ⟨"Mix", "Other"⟩, true⟩

/-- A schema with two catch-all-marked variants where the second one is a
unit variant (wrongly shaped). -/
def twoCatchAllBadShapeEnum : EnumDef :=
  ⟨"Bad8",
    [⟨"Other1", [⟨"catch_all", AttrMeta.notList⟩], Fields.unnamed [SynType.path ["String"]]⟩,
     ⟨"Other2", [⟨"catch_all", AttrMeta.notList⟩], Fields.unit⟩]⟩

/-- A well-shaped pair of catch-all variants, used to witness the
duplicate-catch-all error. -/
def dupCatchAllEnum : EnumDef :=
  ⟨"Dup",
    [⟨"Other1", [⟨"catch_all", AttrMeta.notList⟩], Fields.unnamed [SynType.path ["String"]]⟩,
     ⟨"Other2", [⟨"catch_all", AttrMeta.notList⟩], Fields.unnamed [SynType.path ["String"]]⟩]⟩

/-- Attribute list used to witness the name-extraction contract: two
renames (last one wins) and two aliases split across two serde lists, with
an unrelated attribute in between. -/
def witnessAttrs : List Attr :=
  [⟨"serde", AttrMeta.list [MetaItem.renameStr "x", MetaItem.renameStr "y", MetaItem.aliasStr "a1"]⟩,
   ⟨"doc", AttrMeta.notList⟩,
   ⟨"serde", AttrMeta.list [MetaItem.aliasStr "a2"]⟩]

/-- Whether the analyzer loop walks past a variant list without erroring:
each variant is either a well-formed known unit variant or the first
catch-all variant with single-field tuple shape. The catch-all field type
is not inspected here — the `String`-field check, like the
missing-catch-all check, runs only after the loop. `seen` records whether
a catch-all was already encountered. -/
def loopCleanB : List SynVariant → Bool → Bool
  | [], _ => true
  | v :: vs, seen =>
    if v.attrs.any isCatchAllAttr then
      if isSingleUnnamed v.fields then
        if seen then false else loopCleanB vs true
      else false
    else
      if v.fields = Fields.unit then
        if extractOk v then loopCleanB vs seen else false
      else false

theorem compile_example : compile exampleEnum = Except.ok exInfo := rfl

theorem compile_mix : compile mixEnum = Except.ok mixInfo := rfl

/-! ### Helper lemmas about the lookup tables -/

theorem find_key_eq (l : List (String × VPath)) (v : String) (p : VPath)
    (hmem : (v, p) ∈ l) (huniq : ∀ a ∈ l, a.1 = v → a.2 = p) :
    l.find? (fun a => a.1 == v) = some (v, p) := by
  have hs : (l.find? (fun a => a.1 == v)).isSome = true :=
    List.find?_isSome.mpr ⟨(v, p), hmem, beq_self_eq_true v⟩
  obtain ⟨a, ha⟩ := Option.isSome_iff_exists.mp hs
  have h1 : a.1 = v := by
    have hb := List.find?_some ha
    exact eq_of_beq hb
  have h2 : a ∈ l := List.mem_of_find?_eq_some ha
  have h3 : a.2 = p := huniq a h2 h1
  rw [ha]
  exact congrArg some (Prod.ext h1 h3)

theorem find_key_none (l : List (String × VPath)) (v : String)
    (h : v ∉ l.map Prod.fst) : l.find? (fun a => a.1 == v) = none := by
  rw [List.find?_eq_none]
  intro x hx hbeq
  simp only [beq_iff_eq] at hbeq
  exact h (List.mem_map.mpr ⟨x, hx, hbeq⟩)

theorem find_path_eq (l : List (String × VPath)) (p : VPath) (N : String)
    (hmem : (N, p) ∈ l) (huniq : ∀ a ∈ l, a.2 = p → a.1 = N) :
    l.find? (fun a => a.2 == p) = some (N, p) := by
  have hs : (l.find? (fun a => a.2 == p)).isSome = true :=
    List.find?_isSome.mpr ⟨(N, p), hmem, beq_self_eq_true p⟩
  obtain ⟨a, ha⟩ := Option.isSome_iff_exists.mp hs
  have h1 : a.2 = p := by
    have hb := List.find?_some ha
    exact eq_of_beq hb
  have h2 : a ∈ l := List.mem_of_find?_eq_some ha
  have h3 : a.1 = N := huniq a h2 h1
  rw [ha]
  exact congrArg some (Prod.ext h3 h1)

theorem decode_of_not_key (info : EnumInfo) (v : String)
    (h : v ∉ decodeKeys info) : decode info v = Variant.catchAll v := by
  unfold decode
  rw [find_key_none _ _ (by simpa [decodeKeys] using h)]

/-! ### Claim theorems -/

/-- Claim C1: `decode` is total and, for every input string, either the
input is a registered wire name or alias and the result is the Known
variant of a matching registered entry, or the result is the catch-all
variant holding the input verbatim and the input matches no registered
entry. -/
theorem decode_total_registered_or_catch_all (info : EnumInfo) (v : String) :
    (∃ p, (v, p) ∈ info.known_arms ++ info.aliases_arms ∧ decode info v = Variant.known p) ∨
    (decode info v = Variant.catchAll v ∧
      ∀ p, (v, p) ∉ info.known_arms ++ info.aliases_arms) := by
  unfold decode
  cases hf : (info.known_arms ++ info.aliases_arms).find? (fun a => a.1 == v) with
  | none =>
    right
    refine ⟨rfl, fun p hp => ?_⟩
    have := List.find?_eq_none.mp hf (v, p) hp
    simp at this
  | some a =>
    left
    have h1 : a.1 = v := by
      have := List.find?_some hf
      simp only [beq_iff_eq] at this
      exact this
    have h2 : a ∈ info.known_arms ++ info.aliases_arms := List.mem_of_find?_eq_some hf
    exact ⟨a.2, by rw [← h1]; exact h2, rfl⟩

/-- Claim C4: a string that is not any registered wire name or alias
decodes to the catch-all variant holding it verbatim, and the catch-all
variant encodes back to exactly that string. -/
theorem unknown_round_trip (info : EnumInfo) (S : String)
    (h : S ∉ decodeKeys info) :
    decode info S = Variant.catchAll S ∧ encode info (Variant.catchAll S) = some S :=
  ⟨decode_of_not_key info S h, rfl⟩

/-- Witness for C4 at the example schema and the unknown string
`UnknownVariant`. -/
theorem unknown_round_trip_witness :
    decode exInfo "UnknownVariant" = Variant.catchAll "UnknownVariant" ∧
    encode exInfo (Variant.catchAll "UnknownVariant") = some "UnknownVariant" :=
  unknown_round_trip exInfo "UnknownVariant" (by decide)

/-- Claim C10: a string that is the primary wire name of a (unique) known
variant decodes to that variant, whatever the alias table contains — known
wire-name arms are matched before every alias arm. -/
theorem wire_name_beats_alias (info : EnumInfo) (S : String) (p : VPath)
    (hmem : (S, p) ∈ info.known_arms)
    (huniq : ∀ a ∈ info.known_arms, a.1 = S → a.2 = p) :
    decode info S = Variant.known p := by
  unfold decode
  rw [List.find?_append, find_key_eq info.known_arms S p hmem huniq]
  rfl

/-- Witness for C10 at a schema where the first-declared variant `A` has
alias `k` := `b` and the later-declared variant `B` has `b` as its primary
wire name: `b` decodes to `B`, not to the alias holder declared first. -/
theorem wire_name_beats_alias_witness :
    ("b", VPath.mk "Mix" "A") ∈ mixInfo.aliases_arms ∧
    decode mixInfo "b" = Variant.known ⟨"Mix", "B"⟩ :=
  ⟨by decide, wire_name_beats_alias mixInfo "b" ⟨"Mix", "B"⟩ (by decide) (by decide)⟩

/-- Counterexample to claim C2 as stated: in the compiled schema
`clashWireEnum`, `B` is a Known variant whose canonical wire name is `Z`
(its declared rename), yet `decode` on `Z` returns `A`, the
earlier-declared variant also renamed to `Z`, not `B`. -/
theorem known_wire_shadowed :
    compile clashWireEnum = Except.ok clashWireInfo ∧
    ("Z", VPath.mk "Bad2" "B") ∈ clashWireInfo.known_arms ∧
    decode clashWireInfo "Z" = Variant.known ⟨"Bad2", "A"⟩ ∧
    Variant.known (VPath.mk "Bad2" "A") ≠ Variant.known ⟨"Bad2", "B"⟩ :=
  ⟨rfl, by decide, by decide, by decide⟩

/-- Claim C2 (amended): for every Known variant path `p` of a compiled
schema with canonical wire name `N`, provided no other known entry carries
the wire name `N` and `p` carries no other wire name (which holds whenever
the schema's decode keys do not collide, variant identifiers being distinct
in Rust), `decode N` returns `p` and `encode p` returns `N`. -/
theorem decode_encode_canonical (info : EnumInfo) (N : String) (p : VPath)
    (hmem : (N, p) ∈ info.known_arms)
    (hN : ∀ a ∈ info.known_arms, a.1 = N → a.2 = p)
    (hp : ∀ a ∈ info.known_arms, a.2 = p → a.1 = N) :
    decode info N = Variant.known p ∧ encode info (Variant.known p) = some N := by
  constructor
  · unfold decode
    rw [List.find?_append, find_key_eq info.known_arms N p hmem hN]
    rfl
  · show Option.map (fun a => a.1) (info.known_arms.find? (fun a => a.2 == p)) = some N
    rw [find_path_eq info.known_arms p N hmem hp]
    rfl

/-- Witness for the amended C2 at the example schema: `OptionB` has the
declared rename `b` as its canonical wire name. -/
theorem decode_encode_canonical_witness :
    decode exInfo "b" = Variant.known ⟨"Example", "OptionB"⟩ ∧
    encode exInfo (Variant.known ⟨"Example", "OptionB"⟩) = some "b" :=
  decode_encode_canonical exInfo "b" ⟨"Example", "OptionB"⟩ (by decide) (by decide) (by decide)

/-- Counterexample to claim C3 as stated: in the compiled schema
`clashAliasEnum`, `A` is a registered alias of variant `B`, yet `decode`
on `A` does not return `B` — the string is also the primary wire name of
variant `A`, and known wire names are matched before any alias. -/
theorem alias_shadowed_by_wire :
    compile clashAliasEnum = Except.ok clashAliasInfo ∧
    ("A", VPath.mk "Bad3" "B") ∈ clashAliasInfo.aliases_arms ∧
    decode clashAliasInfo "A" ≠ Variant.known ⟨"Bad3", "B"⟩ :=
  ⟨rfl, by decide, by decide⟩

/-- Claim C3 (amended): an alias `A` registered for the known variant path
`p` decodes to `p` provided `A` is not any variant's primary wire name and
no other alias entry carries `A`; re-encoding then yields the canonical
wire name `N` of `p`, not `A`. -/
theorem alias_decode_asymmetric_round_trip (info : EnumInfo) (A N : String) (p : VPath)
    (hA : (A, p) ∈ info.aliases_arms)
    (hnk : A ∉ info.known_arms.map Prod.fst)
    (hAu : ∀ a ∈ info.aliases_arms, a.1 = A → a.2 = p)
    (hNp : (N, p) ∈ info.known_arms)
    (hpN : ∀ a ∈ info.known_arms, a.2 = p → a.1 = N) :
    decode info A = Variant.known p ∧ encode info (decode info A) = some N := by
  have hd : decode info A = Variant.known p := by
    unfold decode
    rw [List.find?_append, find_key_none info.known_arms A hnk,
      find_key_eq info.aliases_arms A p hA hAu]
    rfl
  refine ⟨hd, ?_⟩
  rw [hd]
  show Option.map (fun a => a.1) (info.known_arms.find? (fun a => a.2 == p)) = some N
  rw [find_path_eq info.known_arms p N hNp hpN]
  rfl

/-- Witness for the amended C3 at the example schema: alias `alt1` of
`OptionC` decodes to `OptionC` and re-encodes to `OptionC`, not `alt1`. -/
theorem alias_decode_asymmetric_round_trip_witness :
    decode exInfo "alt1" = Variant.known ⟨"Example", "OptionC"⟩ ∧
    encode exInfo (decode exInfo "alt1") = some "OptionC" :=
  alias_decode_asymmetric_round_trip exInfo "alt1" "OptionC" ⟨"Example", "OptionC"⟩
    (by decide) (by decide) (by decide) (by decide) (by decide)

theorem find_first_of_index {α : Type} (q : α → Bool) :
    ∀ (l : List α) (i : Nat) (a : α), l[i]? = some a → q a = true →
      (∀ b ∈ l.take i, q b = false) → l.find? q = some a := by
  intro l
  induction l with
  | nil => intro i a h _ _; simp at h
  | cons x xs ih =>
    intro i a hget hqa hbefore
    cases i with
    | zero =>
      have hxa : x = a := by simpa using hget
      subst hxa
      exact List.find?_cons_of_pos _ hqa
    | succ n =>
      have hx : q x = false := hbefore x (by simp [List.take_succ_cons])
      rw [List.find?_cons_of_neg _ (by simp [hx])]
      refine ih n a (by simpa using hget) hqa (fun b hb => hbefore b ?_)
      simp [List.take_succ_cons]
      exact Or.inr hb

/-- Counterexample to claim C7 as stated: in `aliasVsWireEnum`, variant
`A` is declared first and registers the alias `k`; the later-declared
variant `B` has `k` as its primary wire name. The collided key `k` decodes
to `B`, not to the first-registered entry's variant `A`. -/
theorem alias_registered_first_loses :
    compile aliasVsWireEnum = Except.ok aliasVsWireInfo ∧
    ("k", VPath.mk "Bad7" "A") ∈ aliasVsWireInfo.aliases_arms ∧
    ("k", VPath.mk "Bad7" "B") ∈ aliasVsWireInfo.known_arms ∧
    decode aliasVsWireInfo "k" = Variant.known ⟨"Bad7", "B"⟩ ∧
    VPath.mk "Bad7" "B" ≠ VPath.mk "Bad7" "A" :=
  ⟨rfl, by decide, by decide, by decide, by decide⟩

/-- Claim C7 (amended): on a colliding decode key, the winning entry is
the first one in match order, which is all primary wire names in
declaration order followed by all aliases in declaration order — so a
primary wire name beats an alias even when the alias's variant was
declared first. Formally: if position `i` of the concatenated arm list
holds `(k, p)` and no earlier position holds the key `k`, then `k`
decodes to `p`. -/
theorem decode_first_in_match_order (info : EnumInfo) (k : String) (i : Nat) (p : VPath)
    (hget : (info.known_arms ++ info.aliases_arms)[i]? = some (k, p))
    (hbefore : ∀ b ∈ (info.known_arms ++ info.aliases_arms).take i, b.1 ≠ k) :
    decode info k = Variant.known p := by
  unfold decode
  rw [find_first_of_index (fun a => a.1 == k) _ i (k, p) hget (beq_self_eq_true k)
    (fun b hb => beq_eq_false_iff_ne.mpr (hbefore b hb))]

/-- Witness for the amended C7: in `aliasVsWireEnum` the key `k` is held
both by `B`'s wire-name entry (position 1 of the match order) and by `A`'s
alias entry (position 2); `decode` returns `B`. -/
theorem decode_first_in_match_order_witness :
    decode aliasVsWireInfo "k" = Variant.known ⟨"Bad7", "B"⟩ :=
  decode_first_in_match_order aliasVsWireInfo "k" 1 ⟨"Bad7", "B"⟩ (by decide) (by decide)

/-- Counterexample to claim C5 as stated: in the compiled schema
`unstableEnum` (two variants renamed to the same wire name `y`, the second
also carrying the alias `z`), `decode "z"` is `B`, re-encoding gives `y`,
and decoding `y` gives `A` — one re-encode/re-decode cycle changes the
result. -/
theorem decode_encode_decode_unstable :
    compile unstableEnum = Except.ok unstableInfo ∧
    Option.map (decode unstableInfo) (encode unstableInfo (decode unstableInfo "z")) ≠
      some (decode unstableInfo "z") :=
  ⟨rfl, by decide⟩

/-- Claim C5 (amended): for a schema whose known wire names are pairwise
distinct, and whose alias entries all point at paths that appear among the
known arms (true of every compiled schema), one re-encode/re-decode cycle
is stable: `decode (encode (decode S)) = decode S` for every input string,
with `Option.map` threading the totality wrapper of `encode`. -/
theorem decode_stable (info : EnumInfo)
    (h1 : ∀ a ∈ info.aliases_arms, a.2 ∈ info.known_arms.map Prod.snd)
    (h2 : (info.known_arms.map Prod.fst).Nodup)
    (S : String) :
    Option.map (decode info) (encode info (decode info S)) = some (decode info S) := by
  cases hf : (info.known_arms ++ info.aliases_arms).find? (fun a => a.1 == S) with
  | none =>
    have hd : decode info S = Variant.catchAll S := by unfold decode; rw [hf]
    rw [hd]
    show some (decode info S) = some (Variant.catchAll S)
    rw [hd]
  | some a =>
    have hd : decode info S = Variant.known a.2 := by unfold decode; rw [hf]
    have hamem : a ∈ info.known_arms ++ info.aliases_arms := List.mem_of_find?_eq_some hf
    have hsnd : a.2 ∈ info.known_arms.map Prod.snd := by
      rcases List.mem_append.mp hamem with h | h
      · exact List.mem_map.mpr ⟨a, h, rfl⟩
      · exact h1 a h
    obtain ⟨b0, hb0mem, hb0⟩ := List.mem_map.mp hsnd
    have hs : (info.known_arms.find? (fun x => x.2 == a.2)).isSome = true :=
      List.find?_isSome.mpr ⟨b0, hb0mem, beq_iff_eq.mpr hb0⟩
    obtain ⟨b, hb⟩ := Option.isSome_iff_exists.mp hs
    have hbmem : b ∈ info.known_arms := List.mem_of_find?_eq_some hb
    have hbp : b.2 = a.2 := by
      have hq := List.find?_some hb
      exact eq_of_beq hq
    have henc : encode info (Variant.known a.2) = some b.1 := by
      show Option.map (fun x => x.1) (info.known_arms.find? (fun x => x.2 == a.2)) = some b.1
      rw [hb]
      rfl
    have hbpair : (b.1, b.2) ∈ info.known_arms := by rw [Prod.mk.eta]; exact hbmem
    have hbuniq : ∀ c ∈ info.known_arms, c.1 = b.1 → c.2 = b.2 := fun c hc hceq =>
      congrArg Prod.snd (List.inj_on_of_nodup_map h2 hc hbmem hceq)
    have hdk : decode info b.1 = Variant.known b.2 := by
      unfold decode
      rw [List.find?_append, find_key_eq info.known_arms b.1 b.2 hbpair hbuniq]
      rfl
    rw [hd, henc]
    show some (decode info b.1) = some (Variant.known a.2)
    rw [hdk, hbp]

/-- Witness for the amended C5 at the example schema, on the alias input
`alt1`. -/
theorem decode_stable_witness :
    Option.map (decode exInfo) (encode exInfo (decode exInfo "alt1")) =
      some (decode exInfo "alt1") :=
  decode_stable exInfo (by decide) (by decide) "alt1"

/-- Counterexample to claim C6 as stated: `twoViolationsEnum` contains two
structural violations (a non-unit known variant, and no catch-all variant
at all), yet `compile` reports only the first one; the missing-catch-all
violation is absent from the (single-message) failure. -/
theorem only_first_violation_reported :
    compile twoViolationsEnum = Except.error "non-catch-all variants must be unit variants" ∧
    "non-catch-all variants must be unit variants" ≠
      "you must provide exactly one #[catch_all] variant with a single `String` field" :=
  ⟨rfl, by decide⟩

theorem analyzeGo_skip_clean (e : String) :
    ∀ (l : List SynVariant), (∀ v ∈ l, cleanKnown v) →
      ∀ (vs : List SynVariant) (k a : List (String × VPath)) (copt : Option VPath) (b : Bool),
      ∃ k2 a2, analyzeGo e (l ++ vs) k a copt b = analyzeGo e vs k2 a2 copt b := by
  intro l
  induction l with
  | nil => intro _ vs k a copt b; exact ⟨k, a, rfl⟩
  | cons v rest ih =>
    intro hcl vs k a copt b
    obtain ⟨h1, h2, h3⟩ := hcl v (by simp)
    obtain ⟨r1, r2, hr⟩ : ∃ r1 r2, extractSerdeNames v.attrs v.ident = Except.ok (r1, r2) := by
      unfold extractOk at h3
      cases hex : extractSerdeNames v.attrs v.ident with
      | error m => rw [hex] at h3; simp at h3
      | ok r => exact ⟨r.1, r.2, by rw [Prod.mk.eta]⟩
    have step : analyzeGo e ((v :: rest) ++ vs) k a copt b =
        analyzeGo e (rest ++ vs) (k ++ [(r1, variantPath e v)])
          (a ++ r2.map (fun x => (x, variantPath e v))) copt b := by
      simp [analyzeGo, h1, h2, hr]
    obtain ⟨k2, a2, hrec⟩ := ih (fun w hw => hcl w (by simp [hw])) vs
      (k ++ [(r1, variantPath e v)]) (a ++ r2.map (fun x => (x, variantPath e v))) copt b
    exact ⟨k2, a2, step.trans hrec⟩

theorem singleUnnamed_shape (f : Fields) (hs : isSingleUnnamed f = true) :
    ∃ t, f = Fields.unnamed [t] := by
  cases f with
  | unit => simp [isSingleUnnamed] at hs
  | named tys => simp [isSingleUnnamed] at hs
  | unnamed tys =>
    cases tys with
    | nil => simp [isSingleUnnamed] at hs
    | cons t tl =>
      cases tl with
      | nil => exact ⟨t, rfl⟩
      | cons u ul => simp [isSingleUnnamed] at hs

theorem analyzeGo_dup_error (e : String) (c : SynVariant) (vs : List SynVariant)
    (k a : List (String × VPath)) (cp : VPath) (b : Bool)
    (hc : c.attrs.any isCatchAllAttr = true) (hs : isSingleUnnamed c.fields = true) :
    analyzeGo e (c :: vs) k a (some cp) b =
      Except.error "only one #[catch_all] variant is allowed" := by
  obtain ⟨t, ht⟩ := singleUnnamed_shape c.fields hs
  simp [analyzeGo, hc, ht]

theorem analyzeGo_set_catch (e : String) (c : SynVariant) (vs : List SynVariant)
    (k a : List (String × VPath)) (b : Bool)
    (hc : c.attrs.any isCatchAllAttr = true) (hs : isSingleUnnamed c.fields = true) :
    ∃ cp b2, analyzeGo e (c :: vs) k a none b = analyzeGo e vs k a (some cp) b2 := by
  obtain ⟨t, ht⟩ := singleUnnamed_shape c.fields hs
  exact ⟨variantPath e c, isStringType t, by simp [analyzeGo, hc, ht]⟩

/-- Counterexample to claim C8 as stated: `twoCatchAllBadShapeEnum` has two
variants marked catch-all, but the failure is the second catch-all's shape
error, not the duplicate-catch-all error — the shape of each catch-all is
checked before the duplicate check. -/
theorem duplicate_catch_all_wrong_message :
    compile twoCatchAllBadShapeEnum =
      Except.error "the #[catch_all] variant must be a tuple variant with exactly one field of type `String`" ∧
    "the #[catch_all] variant must be a tuple variant with exactly one field of type `String`" ≠
      "only one #[catch_all] variant is allowed" :=
  ⟨rfl, by decide⟩

/-- Claim C8 (amended): a schema with two (or more) variants marked
catch-all fails to compile with the duplicate-catch-all error provided the
first two catch-all variants are single-field tuple variants and every
earlier variant is a well-formed known unit variant; a shape violation
occurring earlier is reported instead (and compilation still fails). -/
theorem duplicate_catch_all_fails (e : String) (l1 l2 l3 : List SynVariant) (c1 c2 : SynVariant)
    (hl1 : ∀ v ∈ l1, cleanKnown v) (hl2 : ∀ v ∈ l2, cleanKnown v)
    (hc1 : c1.attrs.any isCatchAllAttr = true) (hs1 : isSingleUnnamed c1.fields = true)
    (hc2 : c2.attrs.any isCatchAllAttr = true) (hs2 : isSingleUnnamed c2.fields = true) :
    compile ⟨e, l1 ++ c1 :: (l2 ++ c2 :: l3)⟩ =
      Except.error "only one #[catch_all] variant is allowed" := by
  obtain ⟨k1, a1, e1⟩ := analyzeGo_skip_clean e l1 hl1 (c1 :: (l2 ++ c2 :: l3)) [] [] none false
  obtain ⟨cp, b2, e2⟩ := analyzeGo_set_catch e c1 (l2 ++ c2 :: l3) k1 a1 false hc1 hs1
  obtain ⟨k2, a2, e3⟩ := analyzeGo_skip_clean e l2 hl2 (c2 :: l3) k1 a1 (some cp) b2
  have hana : analyzeEnum ⟨e, l1 ++ c1 :: (l2 ++ c2 :: l3)⟩ =
      Except.error "only one #[catch_all] variant is allowed" := by
    show analyzeGo e (l1 ++ c1 :: (l2 ++ c2 :: l3)) [] [] none false = _
    rw [e1, e2, e3, analyzeGo_dup_error e c2 l3 k2 a2 cp b2 hc2 hs2]
  simp [compile, hana]

/-- Witness for the amended C8: two well-shaped catch-all variants and
nothing else; the duplicate-catch-all error is reported. -/
theorem duplicate_catch_all_fails_witness :
    compile dupCatchAllEnum = Except.error "only one #[catch_all] variant is allowed" :=
  duplicate_catch_all_fails "Dup" [] [] []
    ⟨"Other1", [⟨"catch_all", AttrMeta.notList⟩], Fields.unnamed [SynType.path ["String"]]⟩
    ⟨"Other2", [⟨"catch_all", AttrMeta.notList⟩], Fields.unnamed [SynType.path ["String"]]⟩
    (fun v hv => absurd hv (List.not_mem_nil v)) (fun v hv => absurd hv (List.not_mem_nil v))
    (by decide) (by decide) (by decide) (by decide)

theorem option_or_none_right {α : Type} (x : Option α) : x.or none = x := by
  cases x <;> rfl

theorem option_or_some_absorb {α : Type} (x : Option α) (s : α) (y : Option α) :
    (x.or (some s)).or y = x.or (some s) := by
  cases x <;> rfl

theorem option_or_assoc {α : Type} (x y z : Option α) :
    (x.or y).or z = x.or (y.or z) := by
  cases x <;> rfl

theorem getLast?_or_cons {α : Type} (s : α) (rs : List α) :
    (s :: rs).getLast? = rs.getLast?.or (some s) := by
  induction rs generalizing s with
  | nil => rfl
  | cons t ts ih =>
    rw [List.getLast?_cons_cons, ih t]
    cases hx : ts.getLast? <;> rfl

theorem getLast?_append_or {α : Type} (l m : List α) :
    (l ++ m).getLast? = m.getLast?.or l.getLast? := by
  induction l with
  | nil => rw [List.nil_append, List.getLast?_nil, option_or_none_right]
  | cons x xs ih =>
    rw [List.cons_append, getLast?_or_cons x (xs ++ m), ih, getLast?_or_cons x xs,
      option_or_assoc]

theorem processMetas_spec :
    ∀ (items : List MetaItem) (p : Option String) (as : List String),
      processMetas items p as =
        ((renameValues items).getLast?.or p, as ++ aliasValues items) := by
  intro items
  induction items with
  | nil => intro p as; simp [processMetas, renameValues, aliasValues]
  | cons m rest ih =>
    intro p as
    cases m with
    | renameStr s =>
      show processMetas rest (some s) as = _
      rw [ih (some s) as]
      simp only [renameValues, aliasValues, List.filterMap_cons]
      rw [getLast?_or_cons s]
      exact Prod.ext (by rw [option_or_some_absorb]) rfl
    | aliasStr s =>
      show processMetas rest p (as ++ [s]) = _
      rw [ih p (as ++ [s])]
      simp only [renameValues, aliasValues, List.filterMap_cons]
      exact Prod.ext rfl (by rw [List.append_assoc]; rfl)
    | renameOther =>
      show processMetas rest p as = _
      rw [ih p as]
      simp [renameValues, aliasValues]
    | aliasOther =>
      show processMetas rest p as = _
      rw [ih p as]
      simp [renameValues, aliasValues]
    | other =>
      show processMetas rest p as = _
      rw [ih p as]
      simp [renameValues, aliasValues]

theorem extractGo_spec :
    ∀ (attrs : List Attr) (p : Option String) (as : List String),
      (∀ a ∈ attrs, a.path = "serde" → isMalformed a.meta = false) →
      extractGo attrs p as =
        Except.ok ((renameValues (serdeItems attrs)).getLast?.or p,
          as ++ aliasValues (serdeItems attrs)) := by
  intro attrs
  induction attrs with
  | nil => intro p as _; simp [extractGo, serdeItems, renameValues, aliasValues]
  | cons a rest ih =>
    intro p as h
    have hrest : ∀ x ∈ rest, x.path = "serde" → isMalformed x.meta = false :=
      fun x hx => h x (by simp [hx])
    by_cases hs : a.path = "serde"
    · cases hm : a.meta with
      | list items =>
        have hstep : extractGo (a :: rest) p as =
            extractGo rest (processMetas items p as).1 (processMetas items p as).2 := by
          simp [extractGo, hs, hm]
        rw [hstep, processMetas_spec items p as, ih _ _ hrest]
        have hserde : serdeItems (a :: rest) = items ++ serdeItems rest := by
          simp [serdeItems, hs, hm]
        rw [hserde]
        simp only [renameValues, aliasValues, List.filterMap_append]
        simp [getLast?_append_or, option_or_assoc, List.append_assoc]
      | malformedList m =>
        have := h a (by simp) hs
        rw [hm] at this
        simp [isMalformed] at this
      | notList =>
        have hstep : extractGo (a :: rest) p as = extractGo rest p as := by
          simp [extractGo, hs, hm]
        have hserde : serdeItems (a :: rest) = serdeItems rest := by
          simp [serdeItems, hs, hm]
        rw [hstep, ih _ _ hrest, hserde]
    · have hb : (a.path == "serde") = false := beq_eq_false_iff_ne.mpr hs
      have hstep : extractGo (a :: rest) p as = extractGo rest p as := by
        simp [extractGo, hb]
      have hserde : serdeItems (a :: rest) = serdeItems rest := by
        simp [serdeItems, hb]
      rw [hstep, ih _ _ hrest, hserde]

/-- Claim C9: `extract_serde_names` yields, for a variant with default
name `d` (its identifier), the last declared rename if any renames exist
and `d` otherwise as the primary wire name, and all declared aliases in
source order — provided each serde attribute list parses (the analyzer
otherwise fails before any name is registered). -/
theorem extract_names_spec (attrs : List Attr) (d : String)
    (h : ∀ a ∈ attrs, a.path = "serde" → isMalformed a.meta = false) :
    extractSerdeNames attrs d =
      Except.ok (((renameValues (serdeItems attrs)).getLast?).getD d,
        aliasValues (serdeItems attrs)) := by
  unfold extractSerdeNames
  rw [extractGo_spec attrs none [] h]
  rw [show ((renameValues (serdeItems attrs)).getLast?).or none =
    (renameValues (serdeItems attrs)).getLast? from option_or_none_right _]
  cases hx : (renameValues (serdeItems attrs)).getLast? <;> simp [hx]

/-- Witness for C9 on `witnessAttrs`: two renames `x` then `y` and aliases
`a1`, `a2` across two serde lists; the primary name is the last rename `y`
and the aliases are collected in source order. -/
theorem extract_names_spec_witness :
    extractSerdeNames witnessAttrs "Id" = Except.ok ("y", ["a1", "a2"]) :=
  (extract_names_spec witnessAttrs "Id" (by decide)).trans rfl

theorem analyzeGo_skip_loop (e : String) :
    ∀ (pre vs : List SynVariant) (k a : List (String × VPath)) (copt : Option VPath) (b : Bool),
      loopCleanB pre copt.isSome = true →
      ∃ k2 a2 copt2 b2, analyzeGo e (pre ++ vs) k a copt b = analyzeGo e vs k2 a2 copt2 b2 := by
  intro pre
  induction pre with
  | nil => intro vs k a copt b _; exact ⟨k, a, copt, b, rfl⟩
  | cons v rest ih =>
    intro vs k a copt b hlc
    by_cases hca : v.attrs.any isCatchAllAttr = true
    · cases hshape : isSingleUnnamed v.fields with
      | false => rw [loopCleanB, if_pos hca, hshape] at hlc; simp at hlc
      | true =>
        cases hseen : copt.isSome with
        | true => rw [loopCleanB, if_pos hca, hshape, hseen] at hlc; simp at hlc
        | false =>
          have hlc2 : loopCleanB rest true = true := by
            rw [loopCleanB, if_pos hca, hshape, hseen] at hlc; simpa using hlc
          have hnone : copt = none := by
            cases copt with
            | none => rfl
            | some cp => simp at hseen
          subst hnone
          obtain ⟨cp, b2, hstep⟩ := analyzeGo_set_catch e v (rest ++ vs) k a b hca hshape
          obtain ⟨k2, a2, copt2, b3, hrec⟩ := ih vs k a (some cp) b2 (by simpa using hlc2)
          exact ⟨k2, a2, copt2, b3, by rw [List.cons_append, hstep, hrec]⟩
    · have hca2 : v.attrs.any isCatchAllAttr = false := by
        cases hx : v.attrs.any isCatchAllAttr with
        | false => rfl
        | true => exact absurd hx hca
      by_cases hf : v.fields = Fields.unit
      · cases hx : extractOk v with
        | false =>
          rw [loopCleanB, if_neg (by simp [hca2]), if_pos hf, hx] at hlc; simp at hlc
        | true =>
          have hlc2 : loopCleanB rest copt.isSome = true := by
            rw [loopCleanB, if_neg (by simp [hca2]), if_pos hf, hx] at hlc; simpa using hlc
          obtain ⟨k1, a1, hstep⟩ :=
            analyzeGo_skip_clean e [v] (by intro w hw; rw [List.mem_singleton.mp hw]; exact ⟨hca2, hf, hx⟩)
              (rest ++ vs) k a copt b
          obtain ⟨k2, a2, copt2, b3, hrec⟩ := ih vs k1 a1 copt b hlc2
          exact ⟨k2, a2, copt2, b3, by rw [List.cons_append, ← List.singleton_append, hstep, hrec]⟩
      · rw [loopCleanB, if_neg (by simp [hca2]), if_neg hf] at hlc; simp at hlc

/-- Claim C6 (amended): `compile` fails reporting a single structural
violation, not all of them — the first violation the variant loop itself
detects, in declaration order; the missing-catch-all check and the
catch-all `String`-field check run only after the loop and so lose to any
loop-detected violation even when their variant is declared earlier.
Formally: whenever every variant declared before a non-unit known variant
is loop-clean (a well-formed known unit variant, or a first catch-all of
single-field tuple shape whatever its field type), `compile` reports
exactly that non-unit-variant error, whatever other violations occur
before (deferred kinds) or after it. -/
theorem first_loop_violation_wins (e : String) (pre : List SynVariant) (v : SynVariant)
    (rest : List SynVariant)
    (hpre : loopCleanB pre false = true)
    (h1 : v.attrs.any isCatchAllAttr = false) (h2 : v.fields ≠ Fields.unit) :
    compile ⟨e, pre ++ v :: rest⟩ =
      Except.error "non-catch-all variants must be unit variants" := by
  obtain ⟨k2, a2, copt2, b2, hskip⟩ :=
    analyzeGo_skip_loop e pre (v :: rest) [] [] none false hpre
  have herr : analyzeGo e (v :: rest) k2 a2 copt2 b2 =
      Except.error "non-catch-all variants must be unit variants" := by
    obtain ⟨vid, vattrs, vfields⟩ := v
    cases vfields with
    | unit => exact absurd rfl h2
    | unnamed tys => simp [analyzeGo, h1]
    | named tys => simp [analyzeGo, h1]
  have hana : analyzeEnum ⟨e, pre ++ v :: rest⟩ =
      Except.error "non-catch-all variants must be unit variants" := by
    show analyzeGo e (pre ++ v :: rest) [] [] none false = _
    rw [hskip, herr]
  simp [compile, hana]

/-- Witness for the amended C6 at the schema `{#[catch_all] Other(i32),
B(String)}`: the catch-all's non-`String` field is the first violation in
declaration order, but that check is deferred until after the loop, so the
later known tuple variant `B` is the violation reported. -/
theorem first_loop_violation_wins_witness :
    compile ⟨"Bad6W", [⟨"Other", [⟨"catch_all", AttrMeta.notList⟩], Fields.unnamed [SynType.path ["i32"]]⟩,
        ⟨"B", [], Fields.unnamed [SynType.path ["String"]]⟩]⟩ =
      Except.error "non-catch-all variants must be unit variants" :=
  first_loop_violation_wins "Bad6W"
    [⟨"Other", [⟨"catch_all", AttrMeta.notList⟩], Fields.unnamed [SynType.path ["i32"]]⟩]
    ⟨"B", [], Fields.unnamed [SynType.path ["String"]]⟩ [] (by decide) (by decide) (by decide)
